import Mathlib

/-!
Verification of the NEAT compartment-tree fitting core
(`neat/trees/compartmenttree.py`, `neat/channels/ionchannels.py`).

The Python data model is shallowly embedded: dictionaries become association
lists keyed by `String`, node parameters become real numbers, frequency-domain
quantities become complex numbers, and in-place mutation becomes functional
state passing.  Ion channels are consumed through their interface
(`computePOpen`, `computeLinear`, `computeLinearConc`); the derived operations
`computeLinSum` and `computeLinConc` are embedded from `ionchannels.py`.
-/

noncomputable section

namespace NeatVerif

open scoped Classical

/-! ### Channel capability interface -/

/-- State-variable array of an ion channel (2d in the source). -/
abbrev StateVars := List (List ℝ)

/-- Interface of an ion channel, as consumed by the compartment tree.
`computePOpen`, `computeLinear` and `computeLinearConc` take the expansion
point (`none` means: evaluate at the asymptotic state variables for `v`). -/
structure IonChannel where
  ion : String
  concentrations : List String
  computePOpen : ℝ → Option StateVars → ℝ
  computeLinear : ℝ → ℂ → Option StateVars → ℂ
  computeLinearConc : ℝ → ℂ → String → Option StateVars → ℂ

/-- `IonChannel.computeLinSum` from `ionchannels.py`:
`(e_rev - v) * computeLinear(v, freqs) - computePOpen(v)`. -/
def IonChannel.computeLinSum (ch : IonChannel) (v : ℝ) (freq : ℂ) (e_rev : ℝ)
    (sv : Option StateVars) : ℂ :=
  ((e_rev : ℂ) - (v : ℂ)) * ch.computeLinear v freq sv - (ch.computePOpen v sv : ℂ)

/-- `IonChannel.computeLinConc` from `ionchannels.py`:
`(e_rev - v) * computeLinearConc(v, freqs, ion)`. -/
def IonChannel.computeLinConc (ch : IonChannel) (v : ℝ) (freq : ℂ) (e_rev : ℝ)
    (ionName : String) (sv : Option StateVars) : ℂ :=
  ((e_rev : ℂ) - (v : ℂ)) * ch.computeLinearConc v freq ionName sv

/-- Concentration mechanism (`concmechs.ExpConcMech` is consumed through its
interface: a gain `gamma` and a frequency-domain transfer `computeLin`). -/
structure ConcMech where
  gamma : ℝ
  computeLin : ℂ → ℂ

/-! ### Association lists standing for Python dictionaries -/

/-- Dictionary lookup: first entry with the given key. -/
def aListLookup {α : Type} : List (String × α) → String → Option α
  | [], _ => none
  | (k, v) :: rest, key => if k = key then some v else aListLookup rest key

/-- Dictionary write `d[key] = v`: overwrite the entry if the key is present,
append it otherwise (Python dicts keep insertion order). -/
def aListSet {α : Type} : List (String × α) → String → α → List (String × α)
  | [], key, v => [(key, v)]
  | (k, w) :: rest, key, v =>
    if k = key then (k, v) :: rest else (k, w) :: aListSet rest key v

/-! ### Compartment node -/

/-- One reduced compartment (`CompartmentNode` in `compartmenttree.py`).
`parent_index` is the `.index` of the parent node (`none` for the root).
`currents` maps a channel name to `(conductance, reversal)`. -/
structure CompartmentNode where
  index : ℕ
  loc_ind : ℕ
  parent_index : Option ℕ
  ca : ℝ
  g_c : ℝ
  e_eq : ℝ
  currents : List (String × ℝ × ℝ)
  concmechs : List (String × ConcMech)
  expansion_points : List (String × Option StateVars)

/-- `CompartmentNode.getCurrent`: take the channel instance from the storage,
or a fresh instance from the channel collection `cc` when absent. -/
def getChannel (cc : String → IonChannel) (storage : List (String × IonChannel))
    (name : String) : IonChannel :=
  (aListLookup storage name).getD (cc name)

/-- `CompartmentNode.addCurrent`. For a name other than the leak `L` it
registers the channel with conductance `0` and reversal `e_rev` (taken from
the collection-wide reversal dictionary `erevD` when not given), registers the
default asymptotic expansion point, and lazily populates the channel storage.
For `L` the guard `channel_name is not L` skips the whole body. -/
def CompartmentNode.addCurrent (cc : String → IonChannel) (erevD : String → ℝ)
    (node : CompartmentNode) (channel_name : String) (e_rev : Option ℝ)
    (storage : List (String × IonChannel)) :
    CompartmentNode × List (String × IonChannel) :=
  if channel_name ≠ "L" then
    let e := e_rev.getD (erevD channel_name)
    let node2 := { node with
      currents := aListSet node.currents channel_name (0, e),
      expansion_points := aListSet node.expansion_points channel_name none }
    let storage2 :=
      match aListLookup storage channel_name with
      | none => aListSet storage channel_name (cc channel_name)
      | some _ => storage
    (node2, storage2)
  else (node, storage)

/-- `CompartmentNode.calcMembraneConductanceTerms`, read as the dictionary it
builds: key `L` maps to `1` when requested; any other requested channel maps
to `-computeLinSum(e_eq, freqs, e_rev, statevars)` at the stored reversal and
expansion point.  A requested channel that is not yet in `currents` is first
added by `addCurrent` (reversal from the collection dictionary, asymptotic
expansion point); keys that are not requested are absent. -/
def CompartmentNode.calcMembraneConductanceTerms (cc : String → IonChannel)
    (erevD : String → ℝ) (node : CompartmentNode)
    (storage : List (String × IonChannel)) (freq : ℂ)
    (channel_names : List String) : String → Option ℂ :=
  fun name =>
    if name = "L" then (if "L" ∈ channel_names then some 1 else none)
    else if name ∈ channel_names then
      let ch := getChannel cc storage name
      match aListLookup node.currents name with
      | some ge =>
        some (-(ch.computeLinSum node.e_eq freq ge.2
                  ((aListLookup node.expansion_points name).getD none)))
      | none => some (-(ch.computeLinSum node.e_eq freq (erevD name) none))
    else none

/-- `CompartmentNode.calcMembraneConcentrationTerms`: the product of the
summed linearized currents of channels writing to `ion`, the summed (negated)
concentration sensitivities of channels reading `ion`, and the concentration
mechanism's own frequency-domain transfer. -/
def CompartmentNode.calcMembraneConcentrationTerms (cc : String → IonChannel)
    (node : CompartmentNode) (storage : List (String × IonChannel))
    (ionName : String) (freq : ℂ) (channel_names : List String) : ℂ :=
  let write := (node.currents.map (fun nge =>
    if nge.1 ∈ channel_names ∧ nge.1 ≠ "L" then
      let ch := getChannel cc storage nge.1
      if ch.ion = ionName then
        (nge.2.1 : ℂ) * ch.computeLinSum node.e_eq freq nge.2.2
          ((aListLookup node.expansion_points nge.1).getD none)
      else 0
    else 0)).sum
  let read := (node.currents.map (fun nge =>
    if nge.1 ∈ channel_names ∧ nge.1 ≠ "L" then
      let ch := getChannel cc storage nge.1
      if ionName ∈ ch.concentrations then
        -((nge.2.1 : ℂ) * ch.computeLinConc node.e_eq freq nge.2.2 ionName
          ((aListLookup node.expansion_points nge.1).getD none))
      else 0
    else 0)).sum
  write * read *
    ((aListLookup node.concmechs ionName).getD { gamma := 0, computeLin := fun _ => 0 }).computeLin freq

/-- Conductance and reversal of a named current, `(0, 0)` when absent (the
source would raise a `KeyError`; all embedded call sites only look up keys
that are present). -/
def CompartmentNode.currentOf (node : CompartmentNode) (name : String) : ℝ × ℝ :=
  (aListLookup node.currents name).getD (0, 0)

/-- `CompartmentNode.getGTot` at potential `v` (defaulting to `e_eq`) over the
requested channel names (defaulting to all keys of `currents`): the leak
conductance plus each channel conductance weighted by its open probability. -/
def CompartmentNode.getGTot (cc : String → IonChannel)
    (storage : List (String × IonChannel)) (node : CompartmentNode)
    (v0 : Option ℝ) (channel_names0 : Option (List String)) : ℝ :=
  let channel_names := channel_names0.getD (node.currents.map (fun nge => nge.1))
  let v := v0.getD node.e_eq
  (if "L" ∈ channel_names then (node.currentOf "L").1 else 0) +
  (channel_names.map (fun name =>
    if name = "L" then 0
    else
      let ge := node.currentOf name
      let ch := getChannel cc storage name
      ge.1 * ch.computePOpen v ((aListLookup node.expansion_points name).getD none))).sum

/-- `CompartmentNode.getITot` at potential `v` (defaulting to `e_eq`) over the
requested channel names (defaulting to all keys of `currents`); open
probabilities may be supplied through `p_open_channels`. -/
def CompartmentNode.getITot (cc : String → IonChannel)
    (storage : List (String × IonChannel)) (node : CompartmentNode)
    (v0 : Option ℝ) (channel_names0 : Option (List String))
    (p_open_channels : List (String × ℝ)) : ℝ :=
  let channel_names := channel_names0.getD (node.currents.map (fun nge => nge.1))
  let v := v0.getD node.e_eq
  (if "L" ∈ channel_names then (node.currentOf "L").1 * (v - (node.currentOf "L").2) else 0) +
  (channel_names.map (fun name =>
    if name = "L" then 0
    else
      let ge := node.currentOf name
      match aListLookup p_open_channels name with
      | some po => ge.1 * po * (v - ge.2)
      | none =>
        let ch := getChannel cc storage name
        ge.1 * ch.computePOpen v ((aListLookup node.expansion_points name).getD none)
          * (v - ge.2))).sum

/-- Replace the reversal potential stored under `key` (the in-place update
`self.currents[key][1] = e`). -/
def updateReversal : List (String × ℝ × ℝ) → String → ℝ → List (String × ℝ × ℝ)
  | [], _, _ => []
  | (k, g, e) :: rest, key, enew =>
    if k = key then (k, g, enew) :: rest else (k, g, e) :: updateReversal rest key enew

/-- `CompartmentNode.fitEL`: sum the non-leak currents at the equilibrium
potential (with asymptotic open probabilities), and set the leak reversal to
the closed-form value that makes the total current vanish there. -/
def CompartmentNode.fitEL (cc : String → IonChannel)
    (storage : List (String × IonChannel)) (node : CompartmentNode) :
    CompartmentNode :=
  let i_eq := (node.currents.map (fun nge =>
    if nge.1 = "L" then 0
    else
      let ch := getChannel cc storage nge.1
      nge.2.1 * ch.computePOpen node.e_eq none * (nge.2.2 - node.e_eq))).sum
  let e_l := node.e_eq - i_eq / (node.currentOf "L").1
  { node with currents := updateReversal node.currents "L" e_l }

/-! ### Fit accumulator data and the compartment tree -/

/-- Feature matrix of a fit (list of rows). -/
abbrev FeatureMat := List (List ℝ)

/-- Target vector of a fit. -/
abbrev TargetVec := List ℝ

/-- The `fit_data` accumulator attached to a compartment tree. -/
structure FitData where
  mats_feature : List FeatureMat
  vecs_target : List TargetVec
  weights_fit : List ℝ
  channel_names : List String
  ion : String
  c : Bool

/-- `CompartmentTree.resetFitData`: the idle accumulator. -/
def emptyFitData : FitData :=
  { mats_feature := [], vecs_target := [], weights_fit := [],
    channel_names := [], ion := "", c := false }

/-- An accumulator in the channel-conductance family holding the given
triples. -/
def mkFitData (ms : List FeatureMat) (vs : List TargetVec) (ws : List ℝ)
    (cn : List String) : FitData :=
  { mats_feature := ms, vecs_target := vs, weights_fit := ws,
    channel_names := cn, ion := "", c := false }

/-- `CompartmentTree`: the nodes in iteration order, the lazily populated
channel storage, and the fit accumulator. -/
structure CompartmentTree where
  nodes : List CompartmentNode
  channel_storage : List (String × IonChannel)
  fit_data : FitData

/-- Replace the accumulator of a tree. -/
def withFitData (t : CompartmentTree) (fd : FitData) : CompartmentTree :=
  { t with fit_data := fd }

/-- Number of nodes (`len(self)`). -/
def CompartmentTree.len (t : CompartmentTree) : ℕ := t.nodes.length

/-! ### Index permutations between tree ordering and location ordering -/

/-- `np.argsort` of a list of natural numbers: the positions `0..n-1` sorted
by their values. -/
def argsortList (L : List ℕ) : List ℕ :=
  (List.range L.length).mergeSort (fun a b => decide (L.getD a 0 ≤ L.getD b 0))

/-- `CompartmentTree._permuteToTreeInds`: the `loc_ind` of every node in
iteration order. -/
def CompartmentTree.permuteToTreeInds (t : CompartmentTree) : List ℕ :=
  t.nodes.map (fun node => node.loc_ind)

/-- `CompartmentTree._permuteToLocsInds`: `np.argsort` of the `loc_ind`s. -/
def CompartmentTree.permuteToLocsInds (t : CompartmentTree) : List ℕ :=
  argsortList t.permuteToTreeInds

/-- Fancy indexing `mat[inds]` of a 1d array. -/
def permute1 {α : Type} (inds : List ℕ) (v : ℕ → α) : ℕ → α :=
  fun i => v (inds.getD i 0)

/-- Fancy indexing `mat[inds,:][:,inds]` of a 2d array. -/
def permute2 {α : Type} (inds : List ℕ) (m : ℕ → ℕ → α) : ℕ → ℕ → α :=
  fun i j => m (inds.getD i 0) (inds.getD j 0)

/-- Fancy indexing `mat[:,inds,:][:,:,inds]` of a 3d array (the first,
frequency, axis is untouched). -/
def permute3 {α : Type} (inds : List ℕ) (m : ℕ → ℕ → ℕ → α) : ℕ → ℕ → ℕ → α :=
  fun f i j => m f (inds.getD i 0) (inds.getD j 0)

/-- `CompartmentTree._permuteToTree` on a 1d array. -/
def CompartmentTree.permuteToTree1 {α : Type} (t : CompartmentTree) (v : ℕ → α) : ℕ → α :=
  permute1 t.permuteToTreeInds v

/-- `CompartmentTree._permuteToTree` on a 2d array. -/
def CompartmentTree.permuteToTree2 {α : Type} (t : CompartmentTree) (m : ℕ → ℕ → α) : ℕ → ℕ → α :=
  permute2 t.permuteToTreeInds m

/-- `CompartmentTree._permuteToTree` on a 3d array. -/
def CompartmentTree.permuteToTree3 {α : Type} (t : CompartmentTree)
    (m : ℕ → ℕ → ℕ → α) : ℕ → ℕ → ℕ → α :=
  permute3 t.permuteToTreeInds m

/-- `CompartmentTree._permuteToLocs` on a 1d array. -/
def CompartmentTree.permuteToLocs1 {α : Type} (t : CompartmentTree) (v : ℕ → α) : ℕ → α :=
  permute1 t.permuteToLocsInds v

/-- `CompartmentTree._permuteToLocs` on a 2d array. -/
def CompartmentTree.permuteToLocs2 {α : Type} (t : CompartmentTree) (m : ℕ → ℕ → α) : ℕ → ℕ → α :=
  permute2 t.permuteToLocsInds m

/-- `CompartmentTree._permuteToLocs` on a 3d array. -/
def CompartmentTree.permuteToLocs3 {α : Type} (t : CompartmentTree)
    (m : ℕ → ℕ → ℕ → α) : ℕ → ℕ → ℕ → α :=
  permute3 t.permuteToLocsInds m

/-- The `indexing` argument of the matrix constructors. -/
inductive Indexing where
  | tree : Indexing
  | locs : Indexing

/-! ### Conductance-matrix and system-matrix assembly -/

/-- Entry `(a, b)` of the conductance matrix in tree indexing: the
accumulation loop of `calcConductanceMatrix` read entrywise.  Every node adds
`g_tot + g_c` to its own diagonal entry; every non-root node additionally adds
`g_c` to its parent diagonal entry and subtracts `g_c` from the two
off-diagonal entries that couple it to its parent. -/
def conductanceMatrixTree (cc : String → IonChannel) (t : CompartmentTree)
    (a b : ℕ) : ℝ :=
  (t.nodes.map (fun node =>
    (if a = node.index ∧ b = node.index then
      node.getGTot cc t.channel_storage none none + node.g_c else 0)
    + match node.parent_index with
      | some jj =>
        (if a = jj ∧ b = jj then node.g_c else 0)
        - (if a = node.index ∧ b = jj then node.g_c else 0)
        - (if a = jj ∧ b = node.index then node.g_c else 0)
      | none => 0)).sum

/-- `CompartmentTree.calcConductanceMatrix` with its `indexing` argument. -/
def CompartmentTree.calcConductanceMatrix (cc : String → IonChannel)
    (t : CompartmentTree) (indexing : Indexing) : ℕ → ℕ → ℝ :=
  match indexing with
  | Indexing.tree => conductanceMatrixTree cc t
  | Indexing.locs => permute2 t.permuteToLocsInds (conductanceMatrixTree cc t)

/-- The summed ion-channel contribution to a node's diagonal entry of the
system matrix: `sum(currents[name][0] * g_term for name, g_term in
calcMembraneConductanceTerms(...).items())`.  A requested channel that is not
yet in `currents` has just been added with conductance `0`. -/
def chanContrib (cc : String → IonChannel) (erevD : String → ℝ)
    (node : CompartmentNode) (storage : List (String × IonChannel)) (freq : ℂ)
    (channel_names : List String) : ℂ :=
  (channel_names.dedup.map (fun name =>
    match node.calcMembraneConductanceTerms cc erevD storage freq channel_names name with
    | some term =>
      (((aListLookup node.currents name).map (fun ge => ge.1)).getD 0 : ℂ) * term
    | none => 0)).sum

/-- The summed concentration-mechanism contribution to a node's diagonal
entry: `concmech.gamma * calcMembraneConcentrationTerms(ion, ...)` over the
node's concentration mechanisms. -/
def concContrib (cc : String → IonChannel) (node : CompartmentNode)
    (storage : List (String × IonChannel)) (freq : ℂ)
    (channel_names : List String) : ℂ :=
  (node.concmechs.map (fun icm =>
    (icm.2.gamma : ℂ) *
      node.calcMembraneConcentrationTerms cc storage icm.1 freq channel_names)).sum

/-- Entry `(a, b)` of the system matrix in tree indexing at one frequency:
the accumulation loop of `calcSystemMatrix` read entrywise — capacitive term
`freq * ca` (iff `with_ca`), the coupling-conductance Laplacian terms, the
ion-channel terms, and (iff `use_conc`) the concentration terms, all on the
diagonal except for the `-g_c` couplings. -/
def systemMatrixTree (cc : String → IonChannel) (erevD : String → ℝ)
    (t : CompartmentTree) (freq : ℂ) (channel_names0 : Option (List String))
    (with_ca : Bool) (use_conc : Bool) (add_L : Bool) (a b : ℕ) : ℂ :=
  let cns0 := channel_names0.getD ("L" :: t.channel_storage.map (fun si => si.1))
  let cns := if add_L then "L" :: cns0 else cns0
  (t.nodes.map (fun node =>
    (if a = node.index ∧ b = node.index then
      (if with_ca then freq * (node.ca : ℂ) else 0)
      + (node.g_c : ℂ)
      + chanContrib cc erevD node t.channel_storage freq cns
      + (if use_conc then concContrib cc node t.channel_storage freq cns else 0)
     else 0)
    + match node.parent_index with
      | some jj =>
        (if a = jj ∧ b = jj then (node.g_c : ℂ) else 0)
        - (if a = node.index ∧ b = jj then (node.g_c : ℂ) else 0)
        - (if a = jj ∧ b = node.index then (node.g_c : ℂ) else 0)
      | none => 0)).sum

/-- `CompartmentTree.calcSystemMatrix` at one frequency, as an
`n × n` complex matrix (`n` the node count), including the `indexing`
permutation. -/
def CompartmentTree.calcSystemMatrix (cc : String → IonChannel)
    (erevD : String → ℝ) (t : CompartmentTree) (freq : ℂ)
    (channel_names0 : Option (List String)) (with_ca : Bool) (use_conc : Bool)
    (indexing : Indexing) (add_L : Bool) :
    Matrix (Fin t.len) (Fin t.len) ℂ :=
  match indexing with
  | Indexing.tree =>
    Matrix.of (fun i j => systemMatrixTree cc erevD t freq channel_names0
      with_ca use_conc add_L i.1 j.1)
  | Indexing.locs =>
    Matrix.of (fun i j => permute2 t.permuteToLocsInds
      (systemMatrixTree cc erevD t freq channel_names0 with_ca use_conc add_L) i.1 j.1)

/-- `CompartmentTree.calcImpedanceMatrix`: the matrix inverse (`np.linalg.inv`)
of `calcSystemMatrix` with `with_ca = True` and `add_L = True`. -/
def CompartmentTree.calcImpedanceMatrix (cc : String → IonChannel)
    (erevD : String → ℝ) (t : CompartmentTree) (freq : ℂ)
    (channel_names0 : Option (List String)) (use_conc : Bool)
    (indexing : Indexing) : Matrix (Fin t.len) (Fin t.len) ℂ :=
  (t.calcSystemMatrix cc erevD freq channel_names0 true use_conc indexing true)⁻¹

/-! ### Convolution / eigen engine

`calcEigenvalues` delegates the eigen-decomposition of the passive system
matrix to the numerical library (`scipy.linalg.eig`); the convolution kernel
`_calcConvolution` is embedded as a function of its outputs: the decay rates
`alphas` and the eigenvector matrices `phimat`, `phimat_inv` (the branch of
the source in which they are real, which `calcEigenvalues` takes whenever the
imaginary parts are negligible, so that the final `.real` cast of
`_calcConvolution` is the identity). -/

/-- Propagator coefficient `p0 = exp(alphas * dt)`. -/
def convProp0 {n : ℕ} (alphas : Fin n → ℝ) (dt : ℝ) (j : Fin n) : ℝ :=
  Real.exp (alphas j * dt)

/-- Propagator coefficient `p1 = -1/alphas + (p0 - 1)/(alphas^2 * dt)`. -/
def convProp1 {n : ℕ} (alphas : Fin n → ℝ) (dt : ℝ) (j : Fin n) : ℝ :=
  -1 / alphas j + (convProp0 alphas dt j - 1) / (alphas j ^ 2 * dt)

/-- Propagator coefficient `p2 = p0/alphas - (p0 - 1)/(alphas^2 * dt)`. -/
def convProp2 {n : ℕ} (alphas : Fin n → ℝ) (dt : ℝ) (j : Fin n) : ℝ :=
  convProp0 alphas dt j / alphas j - (convProp0 alphas dt j - 1) / (alphas j ^ 2 * dt)

/-- Steady-state coefficient `p_ = -1/alphas` used for the first sample. -/
def convPropInf {n : ℕ} (alphas : Fin n → ℝ) (j : Fin n) : ℝ :=
  -1 / alphas j

/-- The `(l, n, k, c)`-indexed array propagated by the time loop of
`_calcConvolution` (after the two `einsum`s that scale the inputs by
`phimat_inv[n,k]` and expand them by `phimat[l,n]`), as a function of the time
step: initialized with `p_ * input[0]` and advanced by
`p0*state + p1*input[t+1] + p2*input[t]`. -/
def convArr {n : ℕ} (alphas : Fin n → ℝ) (phimat phimat_inv : Fin n → Fin n → ℝ)
    (dt : ℝ) (inputs : Fin n → ℕ → ℕ → ℝ) :
    ℕ → Fin n → Fin n → Fin n → ℕ → ℝ
  | 0 => fun l j k c =>
    convPropInf alphas j * (phimat l j * (phimat_inv j k * inputs k c 0))
  | t + 1 => fun l j k c =>
    convProp0 alphas dt j * convArr alphas phimat phimat_inv dt inputs t l j k c
    + convProp1 alphas dt j * (phimat l j * (phimat_inv j k * inputs k c (t + 1)))
    + convProp2 alphas dt j * (phimat l j * (phimat_inv j k * inputs k c t))

/-- `CompartmentTree._calcConvolution`: the returned 4d array
(node `l`, input site `k`, input channel `c`, time `t`), obtained by summing
the propagated array over the eigenmode axis. -/
def calcConvolution {n : ℕ} (alphas : Fin n → ℝ)
    (phimat phimat_inv : Fin n → Fin n → ℝ) (dt : ℝ)
    (inputs : Fin n → ℕ → ℕ → ℝ) (l k : Fin n) (c t : ℕ) : ℝ :=
  ∑ j, convArr alphas phimat phimat_inv dt inputs t l j k c

/-- The eigenbasis state of one mode `j` driven by input site `k` and channel
`c`: initialized at the steady-state response to `input[0]` and advanced by
the per-step propagator recursion
`state <- p0*state + p1*input[t+1] + p2*input[t]`. -/
def eigenState {n : ℕ} (alphas : Fin n → ℝ) (phimat_inv : Fin n → Fin n → ℝ)
    (dt : ℝ) (inputs : Fin n → ℕ → ℕ → ℝ) :
    ℕ → Fin n → Fin n → ℕ → ℝ
  | 0 => fun j k c => convPropInf alphas j * (phimat_inv j k * inputs k c 0)
  | t + 1 => fun j k c =>
    convProp0 alphas dt j * eigenState alphas phimat_inv dt inputs t j k c
    + convProp1 alphas dt j * (phimat_inv j k * inputs k c (t + 1))
    + convProp2 alphas dt j * (phimat_inv j k * inputs k c t)

/-! ### Non-negative least squares and the fit actions -/

/-- Dot product of a feature row with a parameter vector. -/
def dotL (row x : List ℝ) : ℝ := (List.zipWith (fun a b => a * b) row x).sum

/-- Squared-error objective of the least-squares problem `A x = b`. -/
def nnlsObj (A : FeatureMat) (b : TargetVec) (x : List ℝ) : ℝ :=
  (List.zipWith (fun row bi => (dotL row x - bi) ^ 2) A b).sum

/-- Number of unknowns of a feature matrix (`A.shape[1]`). -/
def ncols (A : FeatureMat) : ℕ := (A.headD []).length

/-- `x` solves the non-negative least-squares problem `A x = b`:
it is componentwise non-negative and minimizes the squared error among all
componentwise non-negative vectors of the right length. -/
def IsNNLSSolution (A : FeatureMat) (b : TargetVec) (x : List ℝ) : Prop :=
  x.length = ncols A ∧ (∀ xi ∈ x, 0 ≤ xi) ∧
  ∀ y, y.length = ncols A → (∀ yi ∈ y, 0 ≤ yi) → nnlsObj A b x ≤ nnlsObj A b y

/-- Modelled from the spec: `scipy.optimize.nnls`, the external numerical
routine called by `_fitResAction` (spec section 6 consumes it as
"non-negative least squares"; the glossary defines it as the "least-squares
solve constrained to non-negative parameter values").  It is modelled as the
exact minimizer whenever that minimizer is unique. -/
def nnls (A : FeatureMat) (b : TargetVec) : List ℝ :=
  if h : ∃ x, IsNNLSSolution A b x ∧ ∀ y, IsNNLSSolution A b y → y = x then
    h.choose
  else []

/-- Replace the conductance stored under `key`
(the in-place update `node.currents[key][0] = g`). -/
def updateConductance : List (String × ℝ × ℝ) → String → ℝ → List (String × ℝ × ℝ)
  | [], _, _ => []
  | (k, g, e) :: rest, key, gnew =>
    if k = key then (k, gnew, e) :: rest else (k, g, e) :: updateConductance rest key gnew

/-- Replace the gain of the concentration mechanism stored under `key`
(the in-place update `node.concmechs[ion].gamma = c`). -/
def updateGamma : List (String × ConcMech) → String → ℝ → List (String × ConcMech)
  | [], _, _ => []
  | (k, cm) :: rest, key, gnew =>
    if k = key then (k, { cm with gamma := gnew }) :: rest
    else (k, cm) :: updateGamma rest key gnew

/-- `CompartmentTree._toTreeGM`: write the fitted conductance vector back into
the nodes; the flat counter `kk` runs over nodes (outer) and channel names
(inner). -/
def CompartmentTree.toTreeGM (t : CompartmentTree) (g_vec : List ℝ)
    (channel_names : List String) : CompartmentTree :=
  { t with nodes := t.nodes.enum.map (fun iinode =>
      let newCurrents := channel_names.enum.foldl (fun cur jjname =>
        updateConductance cur jjname.2
          (g_vec.getD (iinode.1 * channel_names.length + jjname.1) 0)) iinode.2.currents
      { iinode.2 with currents := newCurrents }) }

/-- `CompartmentTree._toTreeConc`: write the fitted concentration gains back
into the nodes. -/
def CompartmentTree.toTreeConc (t : CompartmentTree) (c_vec : List ℝ)
    (ionName : String) : CompartmentTree :=
  { t with nodes := t.nodes.enum.map (fun iinode =>
      { iinode.2 with
        concmechs := updateGamma iinode.2.concmechs ionName (c_vec.getD iinode.1 0) }) }

/-- `CompartmentTree._toTreeC`: write the fitted capacitances back into the
nodes. -/
def CompartmentTree.toTreeC (t : CompartmentTree) (c_vec : List ℝ) :
    CompartmentTree :=
  { t with nodes := t.nodes.enum.map (fun iinode =>
      { iinode.2 with ca := c_vec.getD iinode.1 0 }) }

/-- Append a `(feature, target, weight)` triple to the accumulator. -/
def appendTriple (fd : FitData) (m : FeatureMat) (v : TargetVec) (w : ℝ) : FitData :=
  { fd with
    mats_feature := fd.mats_feature ++ [m],
    vecs_target := fd.vecs_target ++ [v],
    weights_fit := fd.weights_fit ++ [w] }

/-- The `action` argument of `_fitResAction`. -/
inductive FitAction where
  | fit : FitAction
  | ret : FitAction
  | store : FitAction

/-- `CompartmentTree._fitResAction`.  The keyword arguments are embedded as
`channel_names0` and `ion0` (checked in that order, as in the source), with
`capacitance` the boolean flag; raising becomes `Except.error`.  `fit` solves
by NNLS and writes the result into the tree; `ret` hands the matrices back;
`store` appends the triple after the family checks of the source. -/
def CompartmentTree.fitResAction (t : CompartmentTree) (action : FitAction)
    (mat_feature : FeatureMat) (vec_target : TargetVec) (weight : ℝ)
    (capacitance : Bool) (channel_names0 : Option (List String))
    (ion0 : Option String) :
    Except String (CompartmentTree × Option (FeatureMat × TargetVec)) :=
  match action with
  | FitAction.fit =>
    let vec_res := nnls mat_feature vec_target
    match channel_names0 with
    | some cns => Except.ok (t.toTreeGM vec_res cns, none)
    | none =>
      match ion0 with
      | some i => Except.ok (t.toTreeConc vec_res i, none)
      | none =>
        if capacitance then Except.ok (t.toTreeC vec_res, none)
        else Except.error "Provide channel_names or ion as keyword argument, or set capacitance to True"
  | FitAction.ret => Except.ok (t, some (mat_feature, vec_target))
  | FitAction.store =>
    match channel_names0 with
    | some cns =>
      if t.fit_data.ion ≠ "" then
        Except.error "Stored fit matrices are concentration mech fits, do not try to store channel conductance fit matrices"
      else if t.fit_data.channel_names = [] then
        let fd2 := appendTriple { t.fit_data with channel_names := cns } mat_feature vec_target weight
        Except.ok ({ t with fit_data := fd2 }, none)
      else if t.fit_data.channel_names = cns then
        Except.ok ({ t with fit_data := appendTriple t.fit_data mat_feature vec_target weight }, none)
      else
        Except.error "channel_names does not agree with stored channel names for other fits"
    | none =>
      match ion0 with
      | some i =>
        if t.fit_data.channel_names ≠ [] then
          Except.error "Stored fit matrices are channel conductance fits, do not try to store concentration fit matrices"
        else if t.fit_data.ion = "" then
          let fd2 := appendTriple { t.fit_data with ion := i } mat_feature vec_target weight
          Except.ok ({ t with fit_data := fd2 }, none)
        else if t.fit_data.ion = i then
          Except.ok ({ t with fit_data := appendTriple t.fit_data mat_feature vec_target weight }, none)
        else
          Except.error "ion does not agree with stored ion for other fits"
      | none =>
        if capacitance then
          let fd2 := appendTriple { t.fit_data with c := true } mat_feature vec_target weight
          Except.ok ({ t with fit_data := fd2 }, none)
        else
          Except.ok ({ t with fit_data := appendTriple t.fit_data mat_feature vec_target weight }, none)

/-- Entrywise scaling of a feature-matrix row. -/
def scaleRow (s : ℝ) (row : List ℝ) : List ℝ := row.map (fun a => s * a)

/-- Entrywise scaling of a feature matrix (`m_f *= w_f / nn`). -/
def scaleMatrix (s : ℝ) (A : FeatureMat) : FeatureMat := A.map (scaleRow s)

/-- Entrywise scaling of a target vector (`v_t *= w_f / nn`). -/
def scaleVector (s : ℝ) (b : TargetVec) : TargetVec := b.map (fun a => s * a)

/-- `CompartmentTree.runFit`.  With stored matrices: scale every stored pair
by `weight / sample_count`, concatenate, run the family-appropriate `fit`
action, and reset the accumulator; the boolean result is the
no-fit-performed warning flag, raised instead when nothing is stored (in
which case nothing changes). -/
def CompartmentTree.runFit (t : CompartmentTree) :
    Except String (CompartmentTree × Bool) :=
  let fd := t.fit_data
  if fd.mats_feature.length > 0 then
    let pairs := List.zip (List.zip fd.mats_feature fd.vecs_target) fd.weights_fit
    let scaled := pairs.map (fun mvw =>
      let s := mvw.2 / (mvw.1.2.length : ℝ)
      (scaleMatrix s mvw.1.1, scaleVector s mvw.1.2))
    let mat_feature := (scaled.map (fun mv => mv.1)).flatten
    let vec_target := (scaled.map (fun mv => mv.2)).flatten
    let solved : Except String (CompartmentTree × Option (FeatureMat × TargetVec)) :=
      if fd.channel_names ≠ [] then
        t.fitResAction FitAction.fit mat_feature vec_target 1 false (some fd.channel_names) none
      else if fd.ion ≠ "" then
        t.fitResAction FitAction.fit mat_feature vec_target 1 false none (some fd.ion)
      else if fd.c then
        t.fitResAction FitAction.fit mat_feature vec_target 1 true none none
      else Except.ok (t, none)
    solved.bind (fun tr => Except.ok ({ tr.1 with fit_data := emptyFitData }, false))
  else Except.ok (t, true)

/-! ### Concrete sample instances used for evaluation -/

/-- A concrete ion channel: open probability `0` at the asymptotic expansion
point and `1` at any explicitly supplied one, with vanishing linearized
terms. -/
def sampleChannel : IonChannel :=
  { ion := "na", concentrations := [],
    computePOpen := fun _ sv => match sv with | none => 0 | some _ => 1,
    computeLinear := fun _ _ _ => 0,
    computeLinearConc := fun _ _ _ _ => 0 }

/-- A concrete channel collection. -/
def cc0 : String → IonChannel := fun _ => sampleChannel

/-- A concrete reversal-potential dictionary (`E_REV_DICT`). -/
def erev0 : String → ℝ := fun _ => 50

/-- A single passive root compartment. -/
def leafNode : CompartmentNode :=
  { index := 0, loc_ind := 0, parent_index := none, ca := 1, g_c := 0, e_eq := -75,
    currents := [("L", 1, -75)], concmechs := [], expansion_points := [] }

/-- A one-compartment tree with an idle accumulator. -/
def leafTree : CompartmentTree :=
  { nodes := [leafNode], channel_storage := [], fit_data := emptyFitData }

/-- A compartment with equilibrium potential `0`, unit leak conductance with
reversal `0`, and one channel `X` (conductance `1`, reversal `1`) whose
expansion point is explicitly set. -/
def xNode : CompartmentNode :=
  { index := 0, loc_ind := 0, parent_index := none, ca := 1, g_c := 0, e_eq := 0,
    currents := [("L", 1, 0), ("X", 1, 1)], concmechs := [],
    expansion_points := [("X", some [])] }

/-- Channel storage holding the channel `X`. -/
def xStorage : List (String × IonChannel) := [("X", sampleChannel)]

/-- A tree whose accumulator already holds one channel-conductance triple. -/
def chanFitTree : CompartmentTree :=
  { nodes := [leafNode], channel_storage := [],
    fit_data := { mats_feature := [[[1]]], vecs_target := [[1]], weights_fit := [1],
                  channel_names := ["X"], ion := "", c := false } }

/-- A tree whose accumulator carries both a channel-family tag and an ion
tag (used only to exercise both rejection branches). -/
def mixFitTree : CompartmentTree :=
  { nodes := [leafNode], channel_storage := [],
    fit_data := { mats_feature := [[[1]]], vecs_target := [[1]], weights_fit := [1],
                  channel_names := ["X"], ion := "ca", c := false } }

/-! ## Theorems -/

/-- C10: calling `addCurrent` with channel name `L` leaves the node and the
channel storage completely unchanged — the leak entry of `currents` keeps its
conductance and reversal, nothing is added to `currents` or
`expansion_points`, and no error is raised. -/
theorem claim_C10 (cc : String → IonChannel) (erevD : String → ℝ)
    (node : CompartmentNode) (e_rev : Option ℝ)
    (storage : List (String × IonChannel)) :
    node.addCurrent cc erevD "L" e_rev storage = (node, storage) := by
  simp [CompartmentNode.addCurrent]

/-- The array propagated by the time loop of `_calcConvolution` is, at every
step, the eigenbasis state expanded by the eigenvector matrix. -/
theorem convArr_eq_phimat_mul_eigenState {n : ℕ} (alphas : Fin n → ℝ)
    (phimat phimat_inv : Fin n → Fin n → ℝ) (dt : ℝ)
    (inputs : Fin n → ℕ → ℕ → ℝ) (t : ℕ) (l j k : Fin n) (c : ℕ) :
    convArr alphas phimat phimat_inv dt inputs t l j k c
      = phimat l j * eigenState alphas phimat_inv dt inputs t j k c := by
  induction t with
  | zero => simp [convArr, eigenState]; ring
  | succ t2 ih => simp [convArr, eigenState, ih]; ring

/-- C6: `_calcConvolution` advances an eigenbasis state by the per-step
recursion `state <- p0*state + p1*input[k] + p2*input[k-1]` with
`p0 = exp(alpha*dt)` for the decay rates `alpha` obtained from the passive
system, and the convolution it returns at each node and time step is the
projection of that state back through the eigenvector matrix `phimat`. -/
theorem claim_C6 {n : ℕ} (alphas : Fin n → ℝ)
    (phimat phimat_inv : Fin n → Fin n → ℝ) (dt : ℝ)
    (inputs : Fin n → ℕ → ℕ → ℝ) (l k : Fin n) (c t : ℕ) :
    (∀ j, convProp0 alphas dt j = Real.exp (alphas j * dt))
    ∧ (∀ t2 (j : Fin n),
        eigenState alphas phimat_inv dt inputs (t2 + 1) j k c
          = convProp0 alphas dt j * eigenState alphas phimat_inv dt inputs t2 j k c
            + convProp1 alphas dt j * (phimat_inv j k * inputs k c (t2 + 1))
            + convProp2 alphas dt j * (phimat_inv j k * inputs k c t2))
    ∧ calcConvolution alphas phimat phimat_inv dt inputs l k c t
        = ∑ j, phimat l j * eigenState alphas phimat_inv dt inputs t j k c := by
  refine ⟨fun j => rfl, fun t2 j => rfl, ?_⟩
  unfold calcConvolution
  exact Finset.sum_congr rfl (fun j _ =>
    convArr_eq_phimat_mul_eigenState alphas phimat phimat_inv dt inputs t l j k c)

/-- C8: `runFit` on a tree whose accumulator holds no stored feature matrices
surfaces the warning flag and is a no-op — the tree (node parameters and
accumulator alike) is returned unchanged and no solve happens. -/
theorem claim_C8 (t : CompartmentTree) (h : t.fit_data.mats_feature = []) :
    t.runFit = Except.ok (t, true) := by
  simp [CompartmentTree.runFit, h]

/-- Witness for C8 on the concrete one-compartment tree. -/
theorem claim_C8_witness :
    leafTree.fit_data.mats_feature = [] ∧ leafTree.runFit = Except.ok (leafTree, true) :=
  ⟨rfl, claim_C8 leafTree rfl⟩

/-- C7 (amended): storing with action `store` raises an error and does not
append the triple when the new fit's family and the family already fixed by
earlier stored data are channel-conductance versus concentration (in either
direction).  (Capacitance mismatches are not detected by the source: see the
counterexample.) -/
theorem claim_C7 (t : CompartmentTree) (mf : FeatureMat) (vt : TargetVec)
    (w : ℝ) (cap : Bool) (cns : List String) (i : String) :
    (t.fit_data.ion ≠ "" →
      ∃ msg, t.fitResAction FitAction.store mf vt w cap (some cns) none = Except.error msg)
    ∧ (t.fit_data.channel_names ≠ [] →
      ∃ msg, t.fitResAction FitAction.store mf vt w cap none (some i) = Except.error msg) := by
  constructor
  · intro h
    refine ⟨"Stored fit matrices are concentration mech fits, do not try to store channel conductance fit matrices", ?_⟩
    simp [CompartmentTree.fitResAction, h]
  · intro h
    refine ⟨"Stored fit matrices are channel conductance fits, do not try to store concentration fit matrices", ?_⟩
    simp [CompartmentTree.fitResAction, h]

/-- Witness for C7 on a concrete accumulator state carrying both family tags:
both rejection branches fire. -/
theorem claim_C7_witness :
    (mixFitTree.fit_data.ion ≠ ""
      ∧ ∃ msg, mixFitTree.fitResAction FitAction.store [[2]] [2] 1 false (some ["Y"]) none
          = Except.error msg)
    ∧ (mixFitTree.fit_data.channel_names ≠ []
      ∧ ∃ msg, mixFitTree.fitResAction FitAction.store [[2]] [2] 1 false none (some "k")
          = Except.error msg) := by
  have h := claim_C7 mixFitTree [[2]] [2] 1 false ["Y"] "k"
  have hion : mixFitTree.fit_data.ion ≠ "" := by simp [mixFitTree]
  have hcn : mixFitTree.fit_data.channel_names ≠ [] := by simp [mixFitTree]
  exact ⟨⟨hion, h.1 hion⟩, ⟨hcn, h.2 hcn⟩⟩

/-- Counterexample to C7 as stated: on an accumulator that already holds
channel-conductance fit data (family `["X"]`), a capacitance store does not
raise — it succeeds and appends the triple (and tags the accumulator as a
capacitance fit), so the mismatched pair (channel-conductance, capacitance)
is not rejected. -/
theorem claim_C7_counterexample :
    chanFitTree.fit_data.channel_names = ["X"]
    ∧ chanFitTree.fitResAction FitAction.store [[2]] [2] 1 true none none
      = Except.ok ({ chanFitTree with fit_data :=
          { mats_feature := [[[1]], [[2]]], vecs_target := [[1], [2]],
            weights_fit := [1, 1], channel_names := ["X"], ion := "",
            c := true } }, none) := by
  constructor
  · rfl
  · simp [CompartmentTree.fitResAction, chanFitTree, appendTriple]

/-- C4: `calcMembraneConductanceTerms` maps a requested `L` to the constant
`1`, and maps every other requested channel that is registered in `currents`
to minus the channel's linearized admittance
`-((e_rev - v) * computeLinear - computePOpen)` evaluated at the node's
equilibrium potential, the requested frequency, the channel's stored reversal
and its stored expansion point. -/
theorem claim_C4 (cc : String → IonChannel) (erevD : String → ℝ)
    (node : CompartmentNode) (storage : List (String × IonChannel)) (freq : ℂ)
    (channel_names : List String) (name : String) (g e : ℝ) (sv : Option StateVars)
    (hmem : name ∈ channel_names) (hnL : name ≠ "L")
    (hcur : aListLookup node.currents name = some (g, e))
    (hsv : aListLookup node.expansion_points name = some sv) :
    node.calcMembraneConductanceTerms cc erevD storage freq channel_names "L"
      = (if "L" ∈ channel_names then some 1 else none)
    ∧ node.calcMembraneConductanceTerms cc erevD storage freq channel_names name
      = some (-(((e : ℂ) - (node.e_eq : ℂ))
                  * (getChannel cc storage name).computeLinear node.e_eq freq sv
                - ((getChannel cc storage name).computePOpen node.e_eq sv : ℂ))) := by
  constructor
  · simp [CompartmentNode.calcMembraneConductanceTerms]
  · simp [CompartmentNode.calcMembraneConductanceTerms, hnL, hmem, hcur, hsv,
      IonChannel.computeLinSum]

/-- Witness for C4 on the concrete node `xNode`, channel `X`. -/
theorem claim_C4_witness :
    ("X" ∈ ["L", "X"] ∧ ("X" : String) ≠ "L"
      ∧ aListLookup xNode.currents "X" = some (1, 1)
      ∧ aListLookup xNode.expansion_points "X" = some (some []))
    ∧ (xNode.calcMembraneConductanceTerms cc0 erev0 xStorage 0 ["L", "X"] "L"
        = (if "L" ∈ ["L", "X"] then some 1 else none)
      ∧ xNode.calcMembraneConductanceTerms cc0 erev0 xStorage 0 ["L", "X"] "X"
        = some (-(((1 : ℂ) - ((xNode.e_eq : ℝ) : ℂ))
                    * (getChannel cc0 xStorage "X").computeLinear xNode.e_eq 0 (some [])
                  - ((getChannel cc0 xStorage "X").computePOpen xNode.e_eq (some []) : ℂ)))) := by
  have h1 : aListLookup xNode.currents "X" = some (1, 1) := by
    simp [xNode, aListLookup]
  have h2 : aListLookup xNode.expansion_points "X" = some (some []) := by
    simp [xNode, aListLookup]
  refine ⟨⟨by simp, by simp, h1, h2⟩, ?_⟩
  exact claim_C4 cc0 erev0 xNode xStorage 0 ["L", "X"] "X" 1 1 (some [])
    (by simp) (by simp) h1 h2

/-- A list of non-positive reals has non-positive sum. -/
theorem list_sum_nonpos {l : List ℝ} (h : ∀ x ∈ l, x ≤ 0) : l.sum ≤ 0 := by
  induction l with
  | nil => simp
  | cons a tl ih =>
    simp only [List.sum_cons]
    have h1 := h a (List.mem_cons_self a tl)
    have h2 := ih (fun x hx => h x (List.mem_cons_of_mem a hx))
    linarith

/-- `argsortList L` is a permutation of the positions `0..n-1`. -/
theorem argsort_perm (L : List ℕ) : List.Perm (argsortList L) (List.range L.length) :=
  List.mergeSort_perm _ _

/-- `argsortList L` has the length of `L`. -/
theorem argsort_length (L : List ℕ) : (argsortList L).length = L.length := by
  simpa using (argsort_perm L).length_eq

/-- `argsortList L` has no duplicate entries. -/
theorem argsort_nodup (L : List ℕ) : (argsortList L).Nodup :=
  ((argsort_perm L).nodup_iff).mpr (List.nodup_range _)

/-- Entries of `argsortList L` at in-range positions are in-range indices. -/
theorem argsort_getD_lt (L : List ℕ) (a : ℕ) (ha : a < L.length) :
    (argsortList L).getD a 0 < L.length := by
  have hlen : a < (argsortList L).length := by rw [argsort_length]; exact ha
  rw [List.getD_eq_getElem _ _ hlen]
  have hmem : (argsortList L)[a] ∈ argsortList L := List.getElem_mem hlen
  have := (argsort_perm L).mem_iff.mp hmem
  simpa using List.mem_range.mp this

/-- At distinct in-range positions, `argsortList L` takes distinct values. -/
theorem argsort_getD_inj (L : List ℕ) (a b : ℕ) (ha : a < L.length)
    (hb : b < L.length)
    (h : (argsortList L).getD a 0 = (argsortList L).getD b 0) : a = b := by
  have ha2 : a < (argsortList L).length := by rw [argsort_length]; exact ha
  have hb2 : b < (argsortList L).length := by rw [argsort_length]; exact hb
  rw [List.getD_eq_getElem _ _ ha2, List.getD_eq_getElem _ _ hb2] at h
  exact ((argsort_nodup L).getElem_inj_iff).mp h

/-- The tree-indexed conductance matrix is symmetric, node contribution by
node contribution. -/
theorem conductanceMatrixTree_symm (cc : String → IonChannel)
    (t : CompartmentTree) (a b : ℕ) :
    conductanceMatrixTree cc t a b = conductanceMatrixTree cc t b a := by
  unfold conductanceMatrixTree
  congr 1
  apply List.map_congr_left
  intro node _
  rcases node.parent_index with _ | jj
  · by_cases h1 : a = node.index <;> by_cases h2 : b = node.index <;>
      simp [h1, h2]
  · by_cases h1 : a = node.index <;> by_cases h2 : b = node.index <;>
      by_cases h3 : a = jj <;> by_cases h4 : b = jj <;>
      simp [h1, h2, h3, h4] <;>
      by_cases h5 : node.index = jj <;> simp [h5]

/-- Off-diagonal entries of the tree-indexed conductance matrix are
non-positive when every coupling conductance is non-negative. -/
theorem conductanceMatrixTree_offdiag_nonpos (cc : String → IonChannel)
    (t : CompartmentTree) (hgc : ∀ node ∈ t.nodes, 0 ≤ node.g_c) (a b : ℕ)
    (hab : a ≠ b) : conductanceMatrixTree cc t a b ≤ 0 := by
  unfold conductanceMatrixTree
  apply list_sum_nonpos
  intro x hx
  simp only [List.mem_map] at hx
  obtain ⟨node, hnode, rfl⟩ := hx
  have hgcn := hgc node hnode
  have hdiag : ¬(a = node.index ∧ b = node.index) := by
    intro hcon
    exact hab (hcon.1.trans hcon.2.symm)
  rw [if_neg hdiag]
  rcases node.parent_index with _ | jj
  · simp
  · dsimp only
    have hjj : ¬(a = jj ∧ b = jj) := by
      intro hcon
      exact hab (hcon.1.trans hcon.2.symm)
    rw [if_neg hjj]
    by_cases h3 : a = node.index ∧ b = jj <;> by_cases h4 : a = jj ∧ b = node.index <;>
      simp [h3, h4] <;> try linarith
    all_goals by_cases h5 : node.index = jj <;> simp [h5] <;> linarith

/-- The stored `loc_ind` list has one entry per node. -/
theorem permuteToTreeInds_length (t : CompartmentTree) :
    t.permuteToTreeInds.length = t.len := by
  simp [CompartmentTree.permuteToTreeInds, CompartmentTree.len]

/-- C2: for every compartment tree in which every coupling conductance `g_c`
is non-negative, the conductance matrix (in either indexing) is symmetric,
and every off-diagonal entry of it is at most `0`. -/
theorem claim_C2 (cc : String → IonChannel) (t : CompartmentTree)
    (hgc : ∀ node ∈ t.nodes, 0 ≤ node.g_c) (indexing : Indexing) (a b : ℕ)
    (ha : a < t.len) (hb : b < t.len) :
    t.calcConductanceMatrix cc indexing a b = t.calcConductanceMatrix cc indexing b a
    ∧ (a ≠ b → t.calcConductanceMatrix cc indexing a b ≤ 0) := by
  cases indexing with
  | tree =>
    exact ⟨conductanceMatrixTree_symm cc t a b,
      fun hab => conductanceMatrixTree_offdiag_nonpos cc t hgc a b hab⟩
  | locs =>
    constructor
    · exact conductanceMatrixTree_symm cc t _ _
    · intro hab
      apply conductanceMatrixTree_offdiag_nonpos cc t hgc
      intro hEq
      have ha2 : a < t.permuteToTreeInds.length := by
        rw [permuteToTreeInds_length]; exact ha
      have hb2 : b < t.permuteToTreeInds.length := by
        rw [permuteToTreeInds_length]; exact hb
      exact hab (argsort_getD_inj t.permuteToTreeInds a b ha2 hb2 hEq)

/-- Witness for C2 on the concrete one-compartment tree. -/
theorem claim_C2_witness :
    (∀ node ∈ leafTree.nodes, 0 ≤ node.g_c) ∧ (0 : ℕ) < leafTree.len
    ∧ (leafTree.calcConductanceMatrix cc0 Indexing.locs 0 0
        = leafTree.calcConductanceMatrix cc0 Indexing.locs 0 0
      ∧ ((0 : ℕ) ≠ 0 → leafTree.calcConductanceMatrix cc0 Indexing.locs 0 0 ≤ 0)) := by
  have hgc : ∀ node ∈ leafTree.nodes, 0 ≤ node.g_c := by
    intro node hn
    simp [leafTree] at hn
    subst hn
    norm_num [leafNode]
  have hlen : (0 : ℕ) < leafTree.len := by
    norm_num [CompartmentTree.len, leafTree]
  exact ⟨hgc, hlen, claim_C2 cc0 leafTree hgc Indexing.locs 0 0 hlen hlen⟩

/-- `argsortList L` is sorted by the values of `L`. -/
theorem argsort_sorted (L : List ℕ) :
    List.Pairwise (fun a b => L.getD a 0 ≤ L.getD b 0) (argsortList L) := by
  have h := @List.sorted_mergeSort ℕ
    (fun a b => decide (L.getD a 0 ≤ L.getD b 0))
    (fun a b c hab hbc => by
      simp only [decide_eq_true_eq] at hab hbc ⊢
      omega)
    (fun a b => by
      simp only [Bool.or_eq_true, decide_eq_true_eq]
      omega)
    (List.range L.length)
  exact h.imp (fun hab => by simpa using hab)

/-- Reading a list back through `getD` over its index range reproduces it. -/
theorem map_getD_range (L : List ℕ) :
    (List.range L.length).map (fun i => L.getD i 0) = L := by
  apply List.ext_getElem
  · simp
  · intro i h1 h2
    simp [List.getElem?_eq_getElem h2]

/-- Under the bijectivity hypothesis on `L`, sorting the positions by their
`L`-values yields exactly the value list `0..n-1`. -/
theorem argsort_map_getD (L : List ℕ) (hL : List.Perm L (List.range L.length)) :
    (argsortList L).map (fun i => L.getD i 0) = List.range L.length := by
  have hperm : List.Perm ((argsortList L).map (fun i => L.getD i 0))
      (List.range L.length) := by
    have h1 : List.Perm ((argsortList L).map (fun i => L.getD i 0))
        ((List.range L.length).map (fun i => L.getD i 0)) :=
      (argsort_perm L).map _
    rw [map_getD_range] at h1
    exact h1.trans hL
  have hsorted : List.Pairwise (· ≤ ·) ((argsortList L).map (fun i => L.getD i 0)) :=
    (List.pairwise_map).mpr (argsort_sorted L)
  exact List.eq_of_perm_of_sorted hperm hsorted (List.pairwise_le_range _)

/-- `L[argsort(L)[k]] = k` for every in-range `k`, under the bijectivity
hypothesis. -/
theorem argsort_then_L (L : List ℕ) (hL : List.Perm L (List.range L.length))
    (k : ℕ) (hk : k < L.length) :
    L.getD ((argsortList L).getD k 0) 0 = k := by
  have hmap := argsort_map_getD L hL
  have hk2 : k < (argsortList L).length := by rw [argsort_length]; exact hk
  have h1 : ((argsortList L).map (fun i => L.getD i 0))[k]?
      = (List.range L.length)[k]? := by rw [hmap]
  rw [List.getElem?_map, List.getElem?_eq_getElem hk2, List.getElem?_range hk] at h1
  simp only [Option.map_some'] at h1
  rw [List.getD_eq_getElem _ _ hk2]
  exact Option.some.inj h1

/-- At distinct in-range positions a duplicate-free list takes distinct
values. -/
theorem nodup_getD_inj (L : List ℕ) (hnd : L.Nodup) (a b : ℕ)
    (ha : a < L.length) (hb : b < L.length) (h : L.getD a 0 = L.getD b 0) :
    a = b := by
  rw [List.getD_eq_getElem _ _ ha, List.getD_eq_getElem _ _ hb] at h
  exact (hnd.getElem_inj_iff).mp h

/-- `argsort(L)[L[i]] = i` for every in-range `i`, under the bijectivity
hypothesis. -/
theorem L_then_argsort (L : List ℕ) (hL : List.Perm L (List.range L.length))
    (i : ℕ) (hi : i < L.length) :
    (argsortList L).getD (L.getD i 0) 0 = i := by
  have hnd : L.Nodup := (hL.nodup_iff).mpr (List.nodup_range _)
  have hki : L.getD i 0 < L.length := by
    have hmem : L.getD i 0 ∈ L := by
      rw [List.getD_eq_getElem _ _ hi]
      exact List.getElem_mem hi
    have := hL.mem_iff.mp hmem
    simpa using List.mem_range.mp this
  have h1 : L.getD ((argsortList L).getD (L.getD i 0) 0) 0 = L.getD i 0 :=
    argsort_then_L L hL (L.getD i 0) hki
  exact nodup_getD_inj L hnd _ i (argsort_getD_lt L _ hki) hi h1

/-- C3: for every compartment tree whose `loc_ind` values form a bijection
onto `0..N-1`, `_permuteToTree` and `_permuteToLocs` are mutual inverses on
1-, 2- and 3-dimensional arrays (pointwise on the in-range indices that the
arrays of the source possess). -/
theorem claim_C3 (t : CompartmentTree)
    (hL : List.Perm t.permuteToTreeInds (List.range t.len)) :
    (∀ (α : Type) (v : ℕ → α) (i : ℕ), i < t.len →
        t.permuteToLocs1 (t.permuteToTree1 v) i = v i)
    ∧ (∀ (α : Type) (v : ℕ → α) (i : ℕ), i < t.len →
        t.permuteToTree1 (t.permuteToLocs1 v) i = v i)
    ∧ (∀ (α : Type) (m : ℕ → ℕ → α) (i j : ℕ), i < t.len → j < t.len →
        t.permuteToLocs2 (t.permuteToTree2 m) i j = m i j)
    ∧ (∀ (α : Type) (m : ℕ → ℕ → α) (i j : ℕ), i < t.len → j < t.len →
        t.permuteToTree2 (t.permuteToLocs2 m) i j = m i j)
    ∧ (∀ (α : Type) (m : ℕ → ℕ → ℕ → α) (f i j : ℕ), i < t.len → j < t.len →
        t.permuteToLocs3 (t.permuteToTree3 m) f i j = m f i j)
    ∧ (∀ (α : Type) (m : ℕ → ℕ → ℕ → α) (f i j : ℕ), i < t.len → j < t.len →
        t.permuteToTree3 (t.permuteToLocs3 m) f i j = m f i j) := by
  have hL2 : List.Perm t.permuteToTreeInds (List.range t.permuteToTreeInds.length) := by
    rw [permuteToTreeInds_length]
    exact hL
  have key1 : ∀ i, i < t.len →
      t.permuteToTreeInds.getD ((argsortList t.permuteToTreeInds).getD i 0) 0 = i := by
    intro i hi
    exact argsort_then_L _ hL2 i (by rw [permuteToTreeInds_length]; exact hi)
  have key2 : ∀ i, i < t.len →
      (argsortList t.permuteToTreeInds).getD (t.permuteToTreeInds.getD i 0) 0 = i := by
    intro i hi
    exact L_then_argsort _ hL2 i (by rw [permuteToTreeInds_length]; exact hi)
  refine ⟨?_, ?_, ?_, ?_, ?_, ?_⟩
  · intro α v i hi
    simp only [CompartmentTree.permuteToLocs1, CompartmentTree.permuteToTree1,
      CompartmentTree.permuteToLocsInds, permute1]
    rw [key1 i hi]
  · intro α v i hi
    simp only [CompartmentTree.permuteToLocs1, CompartmentTree.permuteToTree1,
      CompartmentTree.permuteToLocsInds, permute1]
    rw [key2 i hi]
  · intro α m i j hi hj
    simp only [CompartmentTree.permuteToLocs2, CompartmentTree.permuteToTree2,
      CompartmentTree.permuteToLocsInds, permute2]
    rw [key1 i hi, key1 j hj]
  · intro α m i j hi hj
    simp only [CompartmentTree.permuteToLocs2, CompartmentTree.permuteToTree2,
      CompartmentTree.permuteToLocsInds, permute2]
    rw [key2 i hi, key2 j hj]
  · intro α m f i j hi hj
    simp only [CompartmentTree.permuteToLocs3, CompartmentTree.permuteToTree3,
      CompartmentTree.permuteToLocsInds, permute3]
    rw [key1 i hi, key1 j hj]
  · intro α m f i j hi hj
    simp only [CompartmentTree.permuteToLocs3, CompartmentTree.permuteToTree3,
      CompartmentTree.permuteToLocsInds, permute3]
    rw [key2 i hi, key2 j hj]

/-- Witness for C3 on the concrete one-compartment tree. -/
theorem claim_C3_witness :
    List.Perm leafTree.permuteToTreeInds (List.range leafTree.len)
    ∧ leafTree.permuteToLocs1 (leafTree.permuteToTree1 (fun i => i + 5)) 0
        = (0 : ℕ) + 5 := by
  have heq : leafTree.permuteToTreeInds = List.range leafTree.len := by
    simp [CompartmentTree.permuteToTreeInds, leafTree, leafNode,
      CompartmentTree.len, List.range_succ]
  have hperm : List.Perm leafTree.permuteToTreeInds (List.range leafTree.len) := by
    rw [heq]
  refine ⟨hperm, ?_⟩
  exact (claim_C3 leafTree hperm).1 ℕ (fun i => i + 5) 0
    (by norm_num [CompartmentTree.len, leafTree])

/-- `updateReversal` leaves the key list unchanged. -/
theorem updateReversal_map_fst (l : List (String × ℝ × ℝ)) (key : String) (e : ℝ) :
    (updateReversal l key e).map (fun nge => nge.1) = l.map (fun nge => nge.1) := by
  induction l with
  | nil => rfl
  | cons hd tl ih =>
    obtain ⟨k, g, e0⟩ := hd
    by_cases h : k = key <;> simp [updateReversal, h, ih]

/-- Looking up the updated key returns the old conductance with the new
reversal. -/
theorem aListLookup_updateReversal_self (l : List (String × ℝ × ℝ)) (key : String)
    (e g el : ℝ) (h : aListLookup l key = some (g, el)) :
    aListLookup (updateReversal l key e) key = some (g, e) := by
  induction l with
  | nil => simp [aListLookup] at h
  | cons hd tl ih =>
    obtain ⟨k, g0, e0⟩ := hd
    by_cases hk : k = key
    · simp [aListLookup, hk] at h
      simp [updateReversal, hk, aListLookup, h.1]
    · simp [aListLookup, hk] at h
      simp [updateReversal, hk, aListLookup, ih h]

/-- Looking up any other key is unaffected by `updateReversal`. -/
theorem aListLookup_updateReversal_ne (l : List (String × ℝ × ℝ)) (key name : String)
    (e : ℝ) (h : name ≠ key) :
    aListLookup (updateReversal l key e) name = aListLookup l name := by
  induction l with
  | nil => rfl
  | cons hd tl ih =>
    obtain ⟨k, g0, e0⟩ := hd
    by_cases hk : k = key
    · have hkn : ¬key = name := fun hc => h hc.symm
      simp [updateReversal, aListLookup, hk, hkn]
    · by_cases hn : k = name <;> simp [updateReversal, aListLookup, hk, hn, h, ih]

/-- A successful lookup means the key occurs in the key list. -/
theorem aListLookup_mem_fst {α : Type} (l : List (String × α)) (key : String)
    (v : α) (h : aListLookup l key = some v) :
    key ∈ l.map (fun nge => nge.1) := by
  induction l with
  | nil => simp [aListLookup] at h
  | cons hd tl ih =>
    by_cases hk : hd.1 = key
    · simp [hk]
    · rw [show hd :: tl = (hd.1, hd.2) :: tl from rfl] at h
      simp [aListLookup, hk] at h
      simp [ih h]

/-- If every stored expansion point is the asymptotic default, every lookup
produces the asymptotic default. -/
theorem expansion_lookup_asym (l : List (String × Option StateVars))
    (hasym : ∀ p ∈ l, p.2 = none) (name : String) :
    (aListLookup l name).getD none = none := by
  induction l with
  | nil => rfl
  | cons hd tl ih =>
    rw [show hd :: tl = (hd.1, hd.2) :: tl from rfl]
    by_cases hk : hd.1 = name
    · simp [aListLookup, hk, hasym hd (List.mem_cons_self hd tl)]
    · simp only [aListLookup, if_neg hk]
      exact ih (fun p hp => hasym p (List.mem_cons_of_mem hd hp))

/-- With duplicate-free keys, summing a function of `(key, looked-up value)`
over the key list equals summing it over the entries themselves. -/
theorem alist_sum_over_keys (l : List (String × ℝ × ℝ))
    (hnd : (l.map (fun nge => nge.1)).Nodup) (f : String → ℝ × ℝ → ℝ) :
    ((l.map (fun nge => nge.1)).map
        (fun name => f name ((aListLookup l name).getD (0, 0)))).sum
      = (l.map (fun nge => f nge.1 nge.2)).sum := by
  induction l with
  | nil => simp
  | cons hd tl ih =>
    simp only [List.map_cons, List.sum_cons] at hnd ⊢
    rw [List.nodup_cons] at hnd
    have hhd : aListLookup (hd :: tl) hd.1 = some hd.2 := by
      rw [show hd :: tl = (hd.1, hd.2) :: tl from rfl]
      simp [aListLookup]
    rw [hhd]
    have htl : (tl.map (fun nge => nge.1)).map
          (fun name => f name ((aListLookup (hd :: tl) name).getD (0, 0)))
        = (tl.map (fun nge => nge.1)).map
          (fun name => f name ((aListLookup tl name).getD (0, 0))) := by
      apply List.map_congr_left
      intro name hname
      have hne : ¬hd.1 = name := fun hc => hnd.1 (hc ▸ hname)
      rw [show hd :: tl = (hd.1, hd.2) :: tl from rfl]
      simp [aListLookup, hne]
    rw [htl, ih hnd.2]
    simp

/-- Summing a pointwise-negated function negates the sum. -/
theorem list_sum_map_neg {α : Type} (l : List α) (f g : α → ℝ)
    (h : ∀ x ∈ l, f x = -g x) : (l.map f).sum = -(l.map g).sum := by
  induction l with
  | nil => simp
  | cons hd tl ih =>
    simp only [List.map_cons, List.sum_cons]
    rw [h hd (List.mem_cons_self hd tl), ih (fun x hx => h x (List.mem_cons_of_mem hd hx))]
    ring

/-- Total current of a node whose leak reversal has been replaced by `enew`,
evaluated at the equilibrium potential with default arguments: the leak
current plus the sum of the non-leak channel currents (all channels at the
asymptotic expansion point). -/
theorem getITot_after_reversal_update (cc : String → IonChannel)
    (storage : List (String × IonChannel)) (node : CompartmentNode)
    (hnd : (node.currents.map (fun nge => nge.1)).Nodup)
    (gl el0 enew : ℝ)
    (hL : aListLookup node.currents "L" = some (gl, el0))
    (hasym : ∀ p ∈ node.expansion_points, p.2 = none) :
    CompartmentNode.getITot cc storage
        { node with currents := updateReversal node.currents "L" enew }
        none none []
      = gl * (node.e_eq - enew)
        - (node.currents.map (fun nge =>
            if nge.1 = "L" then 0
            else nge.2.1 * (getChannel cc storage nge.1).computePOpen node.e_eq none
              * (nge.2.2 - node.e_eq))).sum := by
  have hmemL : "L" ∈ node.currents.map (fun nge => nge.1) :=
    aListLookup_mem_fst node.currents "L" (gl, el0) hL
  have hlookL : aListLookup (updateReversal node.currents "L" enew) "L"
      = some (gl, enew) := aListLookup_updateReversal_self _ _ _ gl el0 hL
  unfold CompartmentNode.getITot
  simp only [Option.getD_none, updateReversal_map_fst, aListLookup,
    CompartmentNode.currentOf, hlookL, Option.getD_some, if_pos hmemL]
  have hcongr : (node.currents.map (fun nge => nge.1)).map (fun name =>
        if name = "L" then 0
        else ((aListLookup (updateReversal node.currents "L" enew) name).getD (0, 0)).1
          * (getChannel cc storage name).computePOpen node.e_eq
              ((aListLookup node.expansion_points name).getD none)
          * (node.e_eq - ((aListLookup (updateReversal node.currents "L" enew) name).getD (0, 0)).2))
      = (node.currents.map (fun nge => nge.1)).map (fun name =>
        if name = "L" then 0
        else ((aListLookup node.currents name).getD (0, 0)).1
          * (getChannel cc storage name).computePOpen node.e_eq none
          * (node.e_eq - ((aListLookup node.currents name).getD (0, 0)).2)) := by
    apply List.map_congr_left
    intro name hname
    by_cases hnameL : name = "L"
    · simp [hnameL]
    · rw [if_neg hnameL, if_neg hnameL,
        aListLookup_updateReversal_ne node.currents "L" name enew hnameL,
        expansion_lookup_asym node.expansion_points hasym name]
  rw [hcongr]
  rw [alist_sum_over_keys node.currents hnd (fun name ge =>
    if name = "L" then 0
    else ge.1 * (getChannel cc storage name).computePOpen node.e_eq none
      * (node.e_eq - ge.2))]
  rw [list_sum_map_neg node.currents
    (fun nge => if nge.1 = "L" then 0
      else nge.2.1 * (getChannel cc storage nge.1).computePOpen node.e_eq none
        * (node.e_eq - nge.2.2))
    (fun nge => if nge.1 = "L" then 0
      else nge.2.1 * (getChannel cc storage nge.1).computePOpen node.e_eq none
        * (nge.2.2 - node.e_eq))
    (by
      intro nge hmem
      dsimp only
      by_cases hnameL : nge.1 = "L"
      · simp [hnameL]
      · rw [if_neg hnameL, if_neg hnameL]
        ring)]
  ring

/-- C5 (amended): for every compartment node with a nonzero leak conductance
whose channels are all linearized at the default asymptotic expansion point,
after `fitEL` the total steady-state current `getITot` at the equilibrium
potential is zero, and the only field modified is the leak reversal
potential. -/
theorem claim_C5 (cc : String → IonChannel) (storage : List (String × IonChannel))
    (node : CompartmentNode)
    (hnd : (node.currents.map (fun nge => nge.1)).Nodup)
    (gl el0 : ℝ) (hL : aListLookup node.currents "L" = some (gl, el0))
    (hgl : gl ≠ 0)
    (hasym : ∀ p ∈ node.expansion_points, p.2 = none) :
    (node.fitEL cc storage).getITot cc storage none none [] = 0
    ∧ ∃ e2, node.fitEL cc storage
        = { node with currents := updateReversal node.currents "L" e2 } := by
  have hcurOf : node.currentOf "L" = (gl, el0) := by
    simp [CompartmentNode.currentOf, hL]
  obtain ⟨e2, hfit⟩ : ∃ e2, node.fitEL cc storage
      = { node with currents := updateReversal node.currents "L" e2 } := ⟨_, rfl⟩
  refine ⟨?_, ⟨e2, hfit⟩⟩
  have he2 : e2 = node.e_eq - (node.currents.map (fun nge =>
      if nge.1 = "L" then 0
      else nge.2.1 * (getChannel cc storage nge.1).computePOpen node.e_eq none
        * (nge.2.2 - node.e_eq))).sum / gl := by
    have h3 : (node.fitEL cc storage).currents
        = updateReversal node.currents "L"
          (node.e_eq - (node.currents.map (fun nge =>
            if nge.1 = "L" then 0
            else nge.2.1 * (getChannel cc storage nge.1).computePOpen node.e_eq none
              * (nge.2.2 - node.e_eq))).sum / gl) := by
      simp only [CompartmentNode.fitEL]
      rw [hcurOf]
    have h1 : aListLookup (node.fitEL cc storage).currents "L" = some (gl, e2) := by
      rw [hfit]
      exact aListLookup_updateReversal_self _ _ _ gl el0 hL
    have h2 : aListLookup (node.fitEL cc storage).currents "L"
        = some (gl, node.e_eq - (node.currents.map (fun nge =>
            if nge.1 = "L" then 0
            else nge.2.1 * (getChannel cc storage nge.1).computePOpen node.e_eq none
              * (nge.2.2 - node.e_eq))).sum / gl) := by
      rw [h3]
      exact aListLookup_updateReversal_self _ _ _ gl el0 hL
    rw [h1] at h2
    exact congrArg Prod.snd (Option.some.inj h2)
  rw [hfit]
  rw [getITot_after_reversal_update cc storage node hnd gl el0 e2 hL hasym]
  rw [he2]
  field_simp

/-- Witness for C5 on the concrete passive compartment. -/
theorem claim_C5_witness :
    ((leafNode.currents.map (fun nge => nge.1)).Nodup
      ∧ aListLookup leafNode.currents "L" = some (1, -75)
      ∧ (1 : ℝ) ≠ 0
      ∧ ∀ p ∈ leafNode.expansion_points, p.2 = none)
    ∧ ((leafNode.fitEL cc0 xStorage).getITot cc0 xStorage none none [] = 0
      ∧ ∃ e2, leafNode.fitEL cc0 xStorage
          = { leafNode with currents := updateReversal leafNode.currents "L" e2 }) := by
  have hnd : (leafNode.currents.map (fun nge => nge.1)).Nodup := by
    simp [leafNode]
  have hL : aListLookup leafNode.currents "L" = some (1, -75) := by
    simp [leafNode, aListLookup]
  have hgl : (1 : ℝ) ≠ 0 := one_ne_zero
  have hasym : ∀ p ∈ leafNode.expansion_points, p.2 = none := by
    simp [leafNode]
  exact ⟨⟨hnd, hL, hgl, hasym⟩, claim_C5 cc0 xStorage leafNode hnd 1 (-75) hL hgl hasym⟩

/-- Counterexample to C5 as stated: on `xNode` — nonzero leak conductance,
but channel `X` carries an explicitly set expansion point — the total current
after `fitEL` is `-1`, not `0`: `fitEL` sums the channel currents at the
asymptotic open probabilities, while `getITot` evaluates them at the stored
expansion point. -/
theorem claim_C5_counterexample :
    aListLookup xNode.currents "L" = some (1, 0)
    ∧ (xNode.fitEL cc0 xStorage).getITot cc0 xStorage none none [] = -1 := by
  constructor
  · simp [xNode, aListLookup]
  · norm_num [CompartmentNode.fitEL, CompartmentNode.getITot, xNode, xStorage,
      aListLookup, updateReversal, CompartmentNode.currentOf, getChannel,
      sampleChannel, cc0,
      show ("X" : String) ≠ "L" from by decide,
      show ("L" : String) ≠ "X" from by decide]

/-- C1: whenever the system matrix is invertible, `calcImpedanceMatrix`
returns its matrix inverse, so `systemMatrix * impedanceMatrix` is the
identity (for any frequency, channel set, concentration flag and
indexing). -/
theorem claim_C1 (cc : String → IonChannel) (erevD : String → ℝ)
    (t : CompartmentTree) (freq : ℂ) (channel_names0 : Option (List String))
    (use_conc : Bool) (indexing : Indexing)
    (h : IsUnit (t.calcSystemMatrix cc erevD freq channel_names0 true use_conc
      indexing true).det) :
    t.calcSystemMatrix cc erevD freq channel_names0 true use_conc indexing true
      * t.calcImpedanceMatrix cc erevD freq channel_names0 use_conc indexing = 1 :=
  Matrix.mul_nonsing_inv _ h

/-- Witness for C1: on the concrete passive one-compartment tree at zero
frequency the system matrix is the identity, hence invertible. -/
theorem claim_C1_witness :
    IsUnit (leafTree.calcSystemMatrix cc0 erev0 0 (some []) true false
      Indexing.tree true).det
    ∧ leafTree.calcSystemMatrix cc0 erev0 0 (some []) true false Indexing.tree true
      * leafTree.calcImpedanceMatrix cc0 erev0 0 (some []) false Indexing.tree = 1 := by
  have hS : leafTree.calcSystemMatrix cc0 erev0 0 (some []) true false
      Indexing.tree true = 1 := by
    ext i j
    have hlen : leafTree.len = 1 := rfl
    have hi1 : i.1 < 1 := hlen ▸ i.2
    have hj1 : j.1 < 1 := hlen ▸ j.2
    have hij : i = j := by
      apply Fin.ext
      omega
    subst hij
    have hi0 : i.1 = 0 := by omega
    simp [CompartmentTree.calcSystemMatrix, systemMatrixTree, chanContrib,
      concContrib, CompartmentNode.calcMembraneConductanceTerms, aListLookup,
      leafTree, leafNode, Matrix.one_apply, hi0]
  have hdet : IsUnit (leafTree.calcSystemMatrix cc0 erev0 0 (some []) true false
      Indexing.tree true).det := by
    rw [hS]
    simp
  exact ⟨hdet, claim_C1 cc0 erev0 leafTree 0 (some []) false Indexing.tree hdet⟩

/-- Scaling a feature row scales the dot product. -/
theorem dotL_scaleRow (s : ℝ) (row : List ℝ) : ∀ x : List ℝ,
    dotL (scaleRow s row) x = s * dotL row x := by
  induction row with
  | nil => intro x; simp [dotL, scaleRow]
  | cons a tl ih =>
    intro x
    cases x with
    | nil => simp [dotL, scaleRow]
    | cons bi xtl =>
      simp only [dotL, scaleRow, List.map_cons, List.zipWith_cons_cons, List.sum_cons]
      have h := ih xtl
      simp only [dotL, scaleRow] at h
      rw [h]
      ring

/-- Scaling a least-squares problem scales its objective by the square. -/
theorem nnlsObj_scale (s : ℝ) (A : FeatureMat) (x : List ℝ) : ∀ b : TargetVec,
    nnlsObj (scaleMatrix s A) (scaleVector s b) x = s ^ 2 * nnlsObj A b x := by
  induction A with
  | nil => intro b; simp [nnlsObj, scaleMatrix, scaleVector]
  | cons row tlA ih =>
    intro b
    cases b with
    | nil => simp [nnlsObj, scaleMatrix, scaleVector]
    | cons bi tlb =>
      simp only [nnlsObj, scaleMatrix, scaleVector, List.map_cons,
        List.zipWith_cons_cons, List.sum_cons]
      have h1 := dotL_scaleRow s row x
      have h2 := ih tlb
      simp only [nnlsObj, scaleMatrix, scaleVector] at h2
      rw [h1, h2]
      ring

/-- The objective of vertically stacked problems is the sum of the
objectives. -/
theorem nnlsObj_append (A1 A2 : FeatureMat) (b1 b2 : TargetVec) (x : List ℝ)
    (hlen : A1.length = b1.length) :
    nnlsObj (A1 ++ A2) (b1 ++ b2) x = nnlsObj A1 b1 x + nnlsObj A2 b2 x := by
  unfold nnlsObj
  rw [List.zipWith_append _ _ _ _ _ hlen, List.sum_append]

/-- Scaling preserves the number of unknowns. -/
theorem ncols_scale (s : ℝ) (A : FeatureMat) : ncols (scaleMatrix s A) = ncols A := by
  cases A <;> simp [ncols, scaleMatrix, scaleRow]

/-- Self-stacking preserves the number of unknowns. -/
theorem ncols_append_self (A : FeatureMat) : ncols (A ++ A) = ncols A := by
  cases A <;> simp [ncols]

/-- The modelled `nnls` returns equal results on problems with identical
solution sets. -/
theorem nnls_congr (A1 A2 : FeatureMat) (b1 b2 : TargetVec)
    (h : ∀ x, IsNNLSSolution A1 b1 x ↔ IsNNLSSolution A2 b2 x) :
    nnls A1 b1 = nnls A2 b2 := by
  unfold nnls
  by_cases h1 : ∃ x, IsNNLSSolution A1 b1 x ∧ ∀ y, IsNNLSSolution A1 b1 y → y = x
  · have h2 : ∃ x, IsNNLSSolution A2 b2 x ∧ ∀ y, IsNNLSSolution A2 b2 y → y = x := by
      obtain ⟨x, hx, hu⟩ := h1
      exact ⟨x, (h x).mp hx, fun y hy => hu y ((h y).mpr hy)⟩
    rw [dif_pos h1, dif_pos h2]
    exact (h1.choose_spec.2 h2.choose ((h h2.choose).mpr h2.choose_spec.1)).symm
  · have h2 : ¬∃ x, IsNNLSSolution A2 b2 x ∧ ∀ y, IsNNLSSolution A2 b2 y → y = x := by
      intro hcon
      obtain ⟨x, hx, hu⟩ := hcon
      exact h1 ⟨x, (h x).mpr hx, fun y hy => hu y ((h y).mp hy)⟩
    rw [dif_neg h1, dif_neg h2]

/-- Storing a problem twice at half scale poses the same non-negative
least-squares problem (identical solution set) as storing it once at full
scale, so the modelled solver returns the same parameters. -/
theorem nnls_double_half (A : FeatureMat) (b : TargetVec) (s : ℝ)
    (hlen : A.length = b.length) :
    nnls (scaleMatrix s A ++ scaleMatrix s A) (scaleVector s b ++ scaleVector s b)
      = nnls (scaleMatrix (2 * s) A) (scaleVector (2 * s) b) := by
  apply nnls_congr
  intro x
  have hlen2 : (scaleMatrix s A).length = (scaleVector s b).length := by
    simp [scaleMatrix, scaleVector, hlen]
  have hobj1 : ∀ y : List ℝ,
      nnlsObj (scaleMatrix s A ++ scaleMatrix s A)
        (scaleVector s b ++ scaleVector s b) y = 2 * s ^ 2 * nnlsObj A b y := by
    intro y
    rw [nnlsObj_append _ _ _ _ _ hlen2, nnlsObj_scale]
    ring
  have hobj2 : ∀ y : List ℝ,
      nnlsObj (scaleMatrix (2 * s) A) (scaleVector (2 * s) b) y
        = 4 * s ^ 2 * nnlsObj A b y := by
    intro y
    rw [nnlsObj_scale]
    ring
  have hkey : ∀ u v : ℝ, 2 * s ^ 2 * u ≤ 2 * s ^ 2 * v ↔ 4 * s ^ 2 * u ≤ 4 * s ^ 2 * v := by
    intro u v
    rcases eq_or_ne s 0 with hs | hs
    · simp [hs]
    · have hs2 : (0 : ℝ) < s ^ 2 := by positivity
      constructor
      · intro hle
        nlinarith
      · intro hle
        nlinarith
  unfold IsNNLSSolution
  rw [ncols_append_self, ncols_scale, ncols_scale]
  constructor
  · rintro ⟨hx1, hx2, hx3⟩
    refine ⟨hx1, hx2, ?_⟩
    intro y hy1 hy2
    have h := hx3 y hy1 hy2
    rw [hobj1 x, hobj1 y] at h
    rw [hobj2 x, hobj2 y]
    exact (hkey _ _).mp h
  · rintro ⟨hx1, hx2, hx3⟩
    refine ⟨hx1, hx2, ?_⟩
    intro y hy1 hy2
    have h := hx3 y hy1 hy2
    rw [hobj2 x, hobj2 y] at h
    rw [hobj1 x, hobj1 y]
    exact (hkey _ _).mpr h

/-- C9: storing a conforming `(feature, target)` pair twice with weight `w/2`
each and then calling `runFit` produces the same result (the same fitted
parameters on the tree, and the same reset accumulator) as storing the pair
once with weight `w` and then calling `runFit`. -/
theorem claim_C9 (t : CompartmentTree) (A : FeatureMat) (b : TargetVec)
    (w : ℝ) (cns : List String)
    (hfd : t.fit_data = emptyFitData) (hlen : A.length = b.length)
    (_hw : 0 < w) :
    (t.fitResAction FitAction.store A b (w / 2) false (some cns) none).bind
        (fun tr => (tr.1.fitResAction FitAction.store A b (w / 2) false (some cns) none).bind
          (fun tr2 => tr2.1.runFit))
      = (t.fitResAction FitAction.store A b w false (some cns) none).bind
        (fun tr => tr.1.runFit) := by
  have hstore1 : t.fitResAction FitAction.store A b (w / 2) false (some cns) none
      = Except.ok (withFitData t (mkFitData [A] [b] [w / 2] cns), none) := by
    simp [CompartmentTree.fitResAction, hfd, emptyFitData, appendTriple,
      mkFitData, withFitData]
  have hstore1w : t.fitResAction FitAction.store A b w false (some cns) none
      = Except.ok (withFitData t (mkFitData [A] [b] [w] cns), none) := by
    simp [CompartmentTree.fitResAction, hfd, emptyFitData, appendTriple,
      mkFitData, withFitData]
  have hstore2 : (withFitData t (mkFitData [A] [b] [w / 2] cns)).fitResAction
        FitAction.store A b (w / 2) false (some cns) none
      = Except.ok (withFitData t (mkFitData [A, A] [b, b] [w / 2, w / 2] cns), none) := by
    by_cases hcns : cns = []
    · subst hcns
      simp [CompartmentTree.fitResAction, withFitData, mkFitData, appendTriple]
    · simp [CompartmentTree.fitResAction, withFitData, mkFitData, appendTriple, hcns]
  rw [hstore1, hstore1w]
  simp only [Except.bind]
  rw [hstore2]
  simp only [Except.bind]
  have hnnls : nnls
        (scaleMatrix (w / 2 / (b.length : ℝ)) A ++ scaleMatrix (w / 2 / (b.length : ℝ)) A)
        (scaleVector (w / 2 / (b.length : ℝ)) b ++ scaleVector (w / 2 / (b.length : ℝ)) b)
      = nnls (scaleMatrix (w / (b.length : ℝ)) A) (scaleVector (w / (b.length : ℝ)) b) := by
    have h2s : w / (b.length : ℝ) = 2 * (w / 2 / (b.length : ℝ)) := by ring
    rw [h2s]
    exact nnls_double_half A b _ hlen
  by_cases hcns : cns = []
  · subst hcns
    simp [CompartmentTree.runFit, withFitData, mkFitData, CompartmentTree.fitResAction]
    simp [Except.bind]
  · simp only [CompartmentTree.runFit, withFitData, mkFitData]
    simp [hcns, CompartmentTree.fitResAction, hnnls]
    simp [Except.bind, CompartmentTree.toTreeGM]

/-- Witness for C9 on the concrete one-compartment tree with a one-row
problem and weight `1`. -/
theorem claim_C9_witness :
    (leafTree.fit_data = emptyFitData
      ∧ ([[1]] : FeatureMat).length = ([1] : TargetVec).length
      ∧ (0 : ℝ) < 1)
    ∧ (leafTree.fitResAction FitAction.store [[1]] [1] ((1 : ℝ) / 2) false (some ["L"]) none).bind
        (fun tr => (tr.1.fitResAction FitAction.store [[1]] [1] ((1 : ℝ) / 2) false (some ["L"]) none).bind
          (fun tr2 => tr2.1.runFit))
      = (leafTree.fitResAction FitAction.store [[1]] [1] 1 false (some ["L"]) none).bind
        (fun tr => tr.1.runFit) := by
  refine ⟨⟨rfl, rfl, by norm_num⟩, ?_⟩
  exact claim_C9 leafTree [[1]] [1] 1 ["L"] rfl rfl (by norm_num)

end NeatVerif
